import Mathlib

/-!
# indexergo: tokenizer, corpus store and TF-IDF ranking

A shallow embedding of `cmd/indexergo` (`indexer.go`, `pageinfo.go`, `tfidf.go`)
and the properties of its natural-language specification.

Conventions of the embedding

* A Go `string` is a Lean `String`.  A byte that is not valid UTF-8 is read by
  `strings.ToLower`, `regexp` and `strings.Fields` as the rune U+FFFD, so it is
  represented by that character; `encoding/json` writes it as U+FFFD too, so the
  strings of a stored record are the valid UTF-8 strings.
* A Go `map[string]T` is a `GoMap T`: a finite map with extensional equality,
  stored as an association list with strictly increasing keys.  A nil map and an
  empty map are not told apart (Go reads both the same way).
* A Go `int` is an `Int`; the one addition that can leave the 64-bit range on
  well-formed input (`total_words += v`) wraps explicitly.  The other counters count
  tokens, tags or documents in memory and stay far below the range.
* A `float64` is an `F64`: NaN, the two infinities, or a finite rational.
  Arithmetic on finite values is exact (rounding and overflow of finite values are
  idealised); `math.Log` on finite positive values is a parameter `ln`.
* The index file is a `Option FileData`: no file, or the bytes of the file seen
  through `encoding/json` (zero length, a JSON document, or anything else).
-/

namespace Indexergo

/-! ## Go maps -/

/-- Order of the keys in the canonical representation of a map. -/
def keyLt (a b : String) : Prop := a.toList < b.toList

instance keyLtDecidable : DecidableRel keyLt :=
  fun a b => inferInstanceAs (Decidable (a.toList < b.toList))

/-- Value bound to `k` in an association list, if any. -/
def lookupEntry {V : Type} (k : String) : List (String × V) → Option V
  | [] => none
  | (k', v) :: rest => if k = k' then some v else lookupEntry k rest

/-- Bind `k` to `v` in an association list with increasing keys. -/
def insertEntry {V : Type} (k : String) (v : V) : List (String × V) → List (String × V)
  | [] => [(k, v)]
  | (k', v') :: rest =>
    if keyLt k k' then (k, v) :: (k', v') :: rest
    else if k = k' then (k, v) :: rest
    else (k', v') :: insertEntry k v rest

theorem keyLt_iff (a b : String) : keyLt a b ↔ a < b :=
  String.lt_iff_toList_lt.symm

theorem keyLt_trans {a b c : String} (h₁ : keyLt a b) (h₂ : keyLt b c) : keyLt a c := by
  rw [keyLt_iff] at *
  exact lt_trans h₁ h₂

theorem keyLt_irrefl (a : String) : ¬ keyLt a a := by
  rw [keyLt_iff]
  exact lt_irrefl a

theorem keyLt_of_not {a b : String} (h₁ : ¬ keyLt a b) (h₂ : a ≠ b) : keyLt b a := by
  rw [keyLt_iff] at *
  exact lt_of_le_of_ne (not_lt.mp h₁) (Ne.symm h₂)

theorem mem_keys_insertEntry {V : Type} (k : String) (v : V) (l : List (String × V))
    (x : String) (hx : x ∈ (insertEntry k v l).map Prod.fst) :
    x = k ∨ x ∈ l.map Prod.fst := by
  induction l with
  | nil => simpa [insertEntry] using hx
  | cons e rest ih =>
    obtain ⟨k', v'⟩ := e
    unfold insertEntry at hx
    split_ifs at hx with h₁ h₂
    · simp only [List.map_cons, List.mem_cons] at hx ⊢
      exact hx
    · simp only [List.map_cons, List.mem_cons] at hx ⊢
      rcases hx with hx | hx
      · exact Or.inl hx
      · exact Or.inr (Or.inr hx)
    · simp only [List.map_cons, List.mem_cons] at hx ⊢
      rcases hx with hx | hx
      · exact Or.inr (Or.inl hx)
      · rcases ih hx with h | h
        · exact Or.inl h
        · exact Or.inr (Or.inr h)

theorem insertEntry_ordered {V : Type} (k : String) (v : V) (l : List (String × V))
    (h : (l.map Prod.fst).Pairwise keyLt) :
    ((insertEntry k v l).map Prod.fst).Pairwise keyLt := by
  induction l with
  | nil => simp [insertEntry]
  | cons e rest ih =>
    obtain ⟨k', v'⟩ := e
    simp only [List.map_cons, List.pairwise_cons] at h
    unfold insertEntry
    split_ifs with h₁ h₂
    · simp only [List.map_cons, List.pairwise_cons, List.mem_cons]
      refine ⟨?_, h.1, h.2⟩
      rintro x (rfl | hx)
      · exact h₁
      · exact keyLt_trans h₁ (h.1 x hx)
    · subst h₂
      simp only [List.map_cons, List.pairwise_cons]
      exact h
    · simp only [List.map_cons, List.pairwise_cons]
      refine ⟨?_, ih h.2⟩
      intro x hx
      rcases mem_keys_insertEntry k v rest x hx with rfl | hx
      · exact keyLt_of_not h₁ h₂
      · exact h.1 x hx

/-- A Go `map[string]V`. -/
structure GoMap (V : Type) where
  entries : List (String × V)
  ordered : (entries.map Prod.fst).Pairwise keyLt


namespace GoMap

/-- The map `map[string]V{}`. -/
def empty {V : Type} : GoMap V := ⟨[], List.Pairwise.nil⟩

/-- The read `v, ok := m[k]`. -/
def get? {V : Type} (m : GoMap V) (k : String) : Option V := lookupEntry k m.entries

/-- The read `m[k]`, whose value is the zero value `d` when `k` is absent. -/
def getD {V : Type} (m : GoMap V) (k : String) (d : V) : V := (m.get? k).getD d

/-- The write `m[k] = v`. -/
def set {V : Type} (m : GoMap V) (k : String) (v : V) : GoMap V :=
  ⟨insertEntry k v m.entries, insertEntry_ordered k v m.entries m.ordered⟩

/-- The values met by `for _, v := range m`. -/
def values {V : Type} (m : GoMap V) : List V := m.entries.map Prod.snd

/-- The keys met by `for k := range m`. -/
def keys {V : Type} (m : GoMap V) : List String := m.entries.map Prod.fst

end GoMap

instance {V : Type} [DecidableEq V] : DecidableEq (GoMap V) := fun a b =>
  decidable_of_iff (a.entries = b.entries)
    ⟨fun h => by cases a; cases b; cases h; rfl, fun h => by rw [h]⟩

instance {ε α : Type} [DecidableEq ε] [DecidableEq α] : DecidableEq (Except ε α) := fun a b =>
  match a, b with
  | Except.ok x, Except.ok y =>
    if h : x = y then isTrue (by rw [h]) else isFalse (fun h' => h (Except.ok.inj h'))
  | Except.error x, Except.error y =>
    if h : x = y then isTrue (by rw [h]) else isFalse (fun h' => h (Except.error.inj h'))
  | Except.ok _, Except.error _ => isFalse (fun h => Except.noConfusion h)
  | Except.error _, Except.ok _ => isFalse (fun h => Except.noConfusion h)

/-! ## Tokenizer (`indexer.go`) -/

/-- The class `\w` of Go's `regexp`: an ASCII letter, an ASCII digit or `_`. -/
def isWordChar (c : Char) : Bool :=
  decide (48 ≤ c.toNat ∧ c.toNat ≤ 57) || decide (65 ≤ c.toNat ∧ c.toNat ≤ 90) ||
    decide (97 ≤ c.toNat ∧ c.toNat ≤ 122) || decide (c.toNat = 95)

/-- The class `\d` of Go's `regexp`: an ASCII digit. -/
def isDigitChar (c : Char) : Bool := decide (48 ≤ c.toNat ∧ c.toNat ≤ 57)

/-- Go's `unicode.IsSpace`. -/
def isSpace (c : Char) : Bool :=
  decide (9 ≤ c.toNat ∧ c.toNat ≤ 13) || decide (c.toNat = 32) || decide (c.toNat = 0x85) ||
    decide (c.toNat = 0xA0) || decide (c.toNat = 0x1680) ||
    decide (0x2000 ≤ c.toNat ∧ c.toNat ≤ 0x200A) || decide (c.toNat = 0x2028) ||
    decide (c.toNat = 0x2029) || decide (c.toNat = 0x202F) || decide (c.toNat = 0x205F) ||
    decide (c.toNat = 0x3000)

/-- Go's `unicode.ToLower` on the code points that `ContentTokensFrequency` can tell
apart: exact on ASCII and on the two code points outside ASCII whose lower case is an
ASCII letter (U+0130 to `i`, U+212A to `k`).  Every other code point has a lower case
outside ASCII and is left as it is; the tokenizer turns both into the same space. -/
def toLowerRune (c : Char) : Char :=
  if 65 ≤ c.toNat ∧ c.toNat ≤ 90 then Char.ofNat (c.toNat + 32)
  else if c.toNat = 0x130 then 'i'
  else if c.toNat = 0x212A then 'k'
  else c

/-- Go's `unicode.ToUpper` on the code points that `ContentTokensFrequency` can tell
apart: exact on ASCII and on the two code points outside ASCII whose upper case is an
ASCII letter (U+0131 to `I`, U+017F to `S`).  Every other code point has an upper case
outside ASCII and is left as it is. -/
def toUpperRune (c : Char) : Char :=
  if 97 ≤ c.toNat ∧ c.toNat ≤ 122 then Char.ofNat (c.toNat - 32)
  else if c.toNat = 0x131 then 'I'
  else if c.toNat = 0x17F then 'S'
  else c

/-- Go's `strings.ToLower`. -/
def ToLower (s : String) : String := String.mk (s.toList.map toLowerRune)

/-- Go's `strings.ToUpper`. -/
def ToUpper (s : String) : String := String.mk (s.toList.map toUpperRune)

/-- The call `regexp.MustCompile("[^\\w]").ReplaceAll(content, " ")`: every rune outside
`\w` becomes one space. -/
def replaceNonWord (s : String) : String :=
  String.mk (s.toList.map (fun c => if isWordChar c then c else ' '))

/-- Scanner of `strings.Fields`: `cur` is the field being read, in reverse. -/
def fieldsAux : List Char → List Char → List String
  | cur, [] => if cur = [] then [] else [String.mk cur.reverse]
  | cur, c :: cs =>
    if isSpace c then
      if cur = [] then fieldsAux [] cs else String.mk cur.reverse :: fieldsAux [] cs
    else fieldsAux (c :: cur) cs

/-- Go's `strings.Fields`: the maximal runs of characters that are not white space. -/
def Fields (s : String) : List String := fieldsAux [] s.toList

/-- The test `regexp.MustCompile("\\d").Match(w)`. -/
def containsDigit (w : String) : Bool := w.toList.any isDigitChar

/-- The statement `tokens[w]++`. -/
def increment (tokens : GoMap Int) (w : String) : GoMap Int :=
  tokens.set w (tokens.getD w 0 + 1)

/-- One turn of the loop of `ContentTokensFrequency`. -/
def countToken (tokens : GoMap Int) (w : String) : GoMap Int :=
  if w.length = 0 then tokens
  else if containsDigit w then tokens
  else increment tokens w

/-- The function `ContentTokensFrequency` of `indexer.go`. -/
def ContentTokensFrequency (content : String) : GoMap Int :=
  let content := ToLower content
  let content := replaceNonWord content
  (Fields content).foldl countToken GoMap.empty

/-- The match of `<(?<tagname>\w*)[^>]*>` that starts at the head of `s`, if there is
one: the capture `tagname` and the length of the match.  Both stars are greedy and
neither has to give anything back: `\w*` takes the whole run of word characters, `[^>]*`
everything up to the first `>`, which must exist. -/
def matchTagAt (s : List Char) : Option (List Char × Nat) :=
  match s with
  | [] => none
  | c :: rest =>
    if c = '<' then
      let name := rest.takeWhile isWordChar
      let afterName := rest.dropWhile isWordChar
      let attrs := afterName.takeWhile (fun x => x ≠ '>')
      match afterName.dropWhile (fun x => x ≠ '>') with
      | [] => none
      | _ :: _ => some (name, 1 + name.length + attrs.length + 1)
    else none

/-- The captures `match[1]` of `r.FindAllStringSubmatch(html, -1)`, left to right:
`skip` counts the characters still covered by the last match, where no match starts. -/
def findAllTags : Nat → List Char → List String
  | _, [] => []
  | skip + 1, _ :: cs => findAllTags skip cs
  | 0, c :: cs =>
    match matchTagAt (c :: cs) with
    | some (name, len) => String.mk name :: findAllTags (len - 1) cs
    | none => findAllTags 0 cs

/-- One turn of the loop of `HTMLTagsFrequency`. -/
def countTag (tags : GoMap Int) (tagName : String) : GoMap Int :=
  if tagName.length = 0 then tags else increment tags tagName

/-- The function `HTMLTagsFrequency` of `indexer.go`. -/
def HTMLTagsFrequency (html : String) : GoMap Int :=
  (findAllTags 0 html.toList).foldl countTag GoMap.empty

/-! ## Document records (`pageinfo.go`) -/

/-- The struct `HTTPResponse`. -/
structure HTTPResponse where
  StatusCode : Int
  URL : String
  Redirected : Bool
  HTML : String
  RedirectHistory : List String
deriving DecidableEq

/-- The struct `PageInfo`. -/
structure PageInfo where
  HTTPResponse : HTTPResponse
  HTMLTags : GoMap Int
  ContentTokens : GoMap Int
  Timestamp : String
deriving DecidableEq

/-! ## Corpus store (`indexer.go`) -/

/-- A JSON document as `encoding/json` reads and writes it.  A number is an integer
literal or any other number literal. -/
inductive Json where
  | null
  | bool (b : Bool)
  | int (n : Int)
  | float
  | str (s : String)
  | arr (xs : List Json)
  | obj (kvs : List (String × Json))

/-- The bytes of a file, as far as `ReadPageInfoCache` looks at them. -/
inductive FileData where
  /-- A file of length zero. -/
  | empty
  /-- The text of a JSON document. -/
  | document (j : Json)
  /-- At least one byte, and not the text of a JSON document. -/
  | malformed

/-- The errors of the store, by the message that wraps them. -/
inductive StoreError where
  /-- The message `[error] reading file`. -/
  | readingFile
  /-- The message `[error] parsing JSON`. -/
  | parsingJSON
  /-- The message `[error] failed to read JSON`, around the error of the read. -/
  | failedToReadJSON (cause : StoreError)
deriving DecidableEq

/-- What `json.MarshalIndent` writes for a `map[string]int`: an object, keys in
increasing order. -/
def marshalMap (m : GoMap Int) : Json :=
  Json.obj (m.entries.map (fun e => (e.1, Json.int e.2)))

/-- What `json.MarshalIndent` writes for an `HTTPResponse`; the field `HTML` has the
tag `json:"-"` and is left out. -/
def marshalHTTPResponse (r : HTTPResponse) : Json :=
  Json.obj [("statusCode", Json.int r.StatusCode), ("url", Json.str r.URL),
    ("redirected", Json.bool r.Redirected),
    ("redirectsHistory", Json.arr (r.RedirectHistory.map Json.str))]

/-- What `json.MarshalIndent` writes for a `PageInfo`. -/
def marshalPageInfo (p : PageInfo) : Json :=
  Json.obj [("httpResponse", marshalHTTPResponse p.HTTPResponse),
    ("htmlTags", marshalMap p.HTMLTags), ("contentTokens", marshalMap p.ContentTokens),
    ("timestamp", Json.str p.Timestamp)]

/-- The call `json.MarshalIndent(allPagesInfo, "", "  ")`. -/
def marshalCorpus (allPagesInfo : List PageInfo) : Json :=
  Json.arr (allPagesInfo.map marshalPageInfo)

/-- The value `json.Unmarshal` stores in an `int`, starting from `cur`.  (An integer
literal outside the 64-bit range, which Go refuses, has no counterpart here.) -/
def unmarshalInt (cur : Int) : Json → Option Int
  | Json.null => some cur
  | Json.int n => some n
  | _ => none

/-- The value `json.Unmarshal` stores in a `string`, starting from `cur`. -/
def unmarshalString (cur : String) : Json → Option String
  | Json.null => some cur
  | Json.str s => some s
  | _ => none

/-- The value `json.Unmarshal` stores in a `bool`, starting from `cur`. -/
def unmarshalBool (cur : Bool) : Json → Option Bool
  | Json.null => some cur
  | Json.bool b => some b
  | _ => none

/-- The elements `json.Unmarshal` stores in a `[]string` for the elements of an array. -/
def unmarshalStrings : List Json → Option (List String)
  | [] => some []
  | j :: js =>
    match unmarshalString "" j, unmarshalStrings js with
    | some s, some ss => some (s :: ss)
    | _, _ => none

/-- The value `json.Unmarshal` stores in a `[]string`, starting from `cur`: an array
replaces the slice. -/
def unmarshalStringSlice (cur : List String) : Json → Option (List String)
  | Json.null => some cur
  | Json.arr xs => unmarshalStrings xs
  | _ => none

/-- The members of an object, stored one by one in a `map[string]int`. -/
def unmarshalMapEntries (cur : GoMap Int) : List (String × Json) → Option (GoMap Int)
  | [] => some cur
  | (k, j) :: rest =>
    match unmarshalInt 0 j with
    | some n => unmarshalMapEntries (cur.set k n) rest
    | none => none

/-- The value `json.Unmarshal` stores in a `map[string]int`, starting from `cur`: an
object adds its members to the map. -/
def unmarshalMap (cur : GoMap Int) : Json → Option (GoMap Int)
  | Json.null => some cur
  | Json.obj kvs => unmarshalMapEntries cur kvs
  | _ => none

/-- The members of an object, stored one by one in an `HTTPResponse`.  Keys are matched
exactly (the fallback of `encoding/json` to a match that ignores case is left out);
no key reaches the field `HTML`. -/
def unmarshalHTTPResponseFields (cur : HTTPResponse) :
    List (String × Json) → Option HTTPResponse
  | [] => some cur
  | (k, j) :: rest =>
    if k = "statusCode" then
      match unmarshalInt cur.StatusCode j with
      | some n => unmarshalHTTPResponseFields { cur with StatusCode := n } rest
      | none => none
    else if k = "url" then
      match unmarshalString cur.URL j with
      | some u => unmarshalHTTPResponseFields { cur with URL := u } rest
      | none => none
    else if k = "redirected" then
      match unmarshalBool cur.Redirected j with
      | some b => unmarshalHTTPResponseFields { cur with Redirected := b } rest
      | none => none
    else if k = "redirectsHistory" then
      match unmarshalStringSlice cur.RedirectHistory j with
      | some h => unmarshalHTTPResponseFields { cur with RedirectHistory := h } rest
      | none => none
    else unmarshalHTTPResponseFields cur rest

/-- The value `json.Unmarshal` stores in an `HTTPResponse`, starting from `cur`. -/
def unmarshalHTTPResponse (cur : HTTPResponse) : Json → Option HTTPResponse
  | Json.null => some cur
  | Json.obj kvs => unmarshalHTTPResponseFields cur kvs
  | _ => none

/-- The members of an object, stored one by one in a `PageInfo` (keys matched exactly). -/
def unmarshalPageInfoFields (cur : PageInfo) : List (String × Json) → Option PageInfo
  | [] => some cur
  | (k, j) :: rest =>
    if k = "httpResponse" then
      match unmarshalHTTPResponse cur.HTTPResponse j with
      | some r => unmarshalPageInfoFields { cur with HTTPResponse := r } rest
      | none => none
    else if k = "htmlTags" then
      match unmarshalMap cur.HTMLTags j with
      | some m => unmarshalPageInfoFields { cur with HTMLTags := m } rest
      | none => none
    else if k = "contentTokens" then
      match unmarshalMap cur.ContentTokens j with
      | some m => unmarshalPageInfoFields { cur with ContentTokens := m } rest
      | none => none
    else if k = "timestamp" then
      match unmarshalString cur.Timestamp j with
      | some t => unmarshalPageInfoFields { cur with Timestamp := t } rest
      | none => none
    else unmarshalPageInfoFields cur rest

/-- The zero value of `PageInfo`. -/
def PageInfo.zero : PageInfo :=
  { HTTPResponse :=
      { StatusCode := 0, URL := "", Redirected := false, HTML := "", RedirectHistory := [] },
    HTMLTags := GoMap.empty, ContentTokens := GoMap.empty, Timestamp := "" }

/-- The value `json.Unmarshal` stores in a new element of a `[]PageInfo`. -/
def unmarshalPageInfo : Json → Option PageInfo
  | Json.null => some PageInfo.zero
  | Json.obj kvs => unmarshalPageInfoFields PageInfo.zero kvs
  | _ => none

/-- The elements `json.Unmarshal` stores in a `[]PageInfo` for the elements of an array. -/
def unmarshalPageInfos : List Json → Option (List PageInfo)
  | [] => some []
  | j :: js =>
    match unmarshalPageInfo j, unmarshalPageInfos js with
    | some p, some ps => some (p :: ps)
    | _, _ => none

/-- The call `json.Unmarshal(fileData, &allPagesInfo)` on the text of the document `j`,
with `allPagesInfo` the empty slice: `none` when it returns an error. -/
def unmarshalCorpus : Json → Option (List PageInfo)
  | Json.null => some []
  | Json.arr xs => unmarshalPageInfos xs
  | _ => none

/-- The function `ReadPageInfoCache` of `indexer.go`; `file` is the file at `filepath`,
`none` when there is no such file. -/
def ReadPageInfoCache (file : Option FileData) : Except StoreError (List PageInfo) :=
  match file with
  | none => Except.error StoreError.readingFile
  | some FileData.empty => Except.ok []
  | some FileData.malformed => Except.error StoreError.parsingJSON
  | some (FileData.document j) =>
    match unmarshalCorpus j with
    | some allPagesInfo => Except.ok allPagesInfo
    | none => Except.error StoreError.parsingJSON

/-- The function `AppendPageInfoToJson` of `indexer.go`: the file at `filepath` after
the call, or the error returned, in which case the file is as it was.  Marshalling
these types cannot fail, and the write is taken to succeed. -/
def AppendPageInfoToJson (file : Option FileData) (pageInfo : PageInfo) :
    Except StoreError (Option FileData) :=
  match ReadPageInfoCache file with
  | Except.error e => Except.error (StoreError.failedToReadJSON e)
  | Except.ok allPagesInfo =>
    let allPagesInfo := allPagesInfo ++ [pageInfo]
    let updatedData := marshalCorpus allPagesInfo
    Except.ok (some (FileData.document updatedData))

/-- A run of `AppendPageInfoToJson`, one call per record, in order, stopping at the
first error as `IndexDocuments` does. -/
def appendAll (file : Option FileData) : List PageInfo → Except StoreError (Option FileData)
  | [] => Except.ok file
  | p :: ps =>
    match AppendPageInfoToJson file p with
    | Except.error e => Except.error e
    | Except.ok file' => appendAll file' ps

/-- The load that follows a run of appends: `ReadPageInfoCache` on the file they leave. -/
def loadAfterAppends (file : Option FileData) (records : List PageInfo) :
    Except StoreError (List PageInfo) :=
  match appendAll file records with
  | Except.error e => Except.error e
  | Except.ok file' => ReadPageInfoCache file'

/-- What the store keeps of a record: everything but `HTTPResponse.HTML`. -/
def persisted (p : PageInfo) : PageInfo :=
  { p with HTTPResponse := { p.HTTPResponse with HTML := "" } }

/-! ## Floating point -/

/-- A `float64`: NaN, an infinity, or a finite value.  The sign of a zero is not kept:
the only divisors of the program are conversions of an `int`, never a negative zero. -/
inductive F64 where
  | nan
  | posInf
  | negInf
  | fin (q : ℚ)
deriving DecidableEq

namespace F64

/-- The conversion `float64(i)`. -/
def ofInt (i : Int) : F64 := fin i

/-- The quotient `x / y` of IEEE 754. -/
def div : F64 → F64 → F64
  | nan, _ => nan
  | _, nan => nan
  | fin a, fin b =>
    if b = 0 then (if a = 0 then nan else if 0 < a then posInf else negInf) else fin (a / b)
  | fin _, posInf => fin 0
  | fin _, negInf => fin 0
  | posInf, fin b => if 0 ≤ b then posInf else negInf
  | negInf, fin b => if 0 ≤ b then negInf else posInf
  | posInf, posInf => nan
  | posInf, negInf => nan
  | negInf, posInf => nan
  | negInf, negInf => nan

/-- The product `x * y` of IEEE 754. -/
def mul : F64 → F64 → F64
  | nan, _ => nan
  | _, nan => nan
  | fin a, fin b => fin (a * b)
  | fin a, posInf => if a = 0 then nan else if 0 < a then posInf else negInf
  | fin a, negInf => if a = 0 then nan else if 0 < a then negInf else posInf
  | posInf, fin b => if b = 0 then nan else if 0 < b then posInf else negInf
  | negInf, fin b => if b = 0 then nan else if 0 < b then negInf else posInf
  | posInf, posInf => posInf
  | posInf, negInf => negInf
  | negInf, posInf => negInf
  | negInf, negInf => posInf

/-- The sum `x + y` of IEEE 754. -/
def add : F64 → F64 → F64
  | nan, _ => nan
  | _, nan => nan
  | fin a, fin b => fin (a + b)
  | fin _, posInf => posInf
  | fin _, negInf => negInf
  | posInf, fin _ => posInf
  | negInf, fin _ => negInf
  | posInf, posInf => posInf
  | posInf, negInf => nan
  | negInf, posInf => nan
  | negInf, negInf => negInf

/-- Go's `math.Log`, given its value `ln q` at a finite `q > 0`. -/
def log (ln : ℚ → ℚ) : F64 → F64
  | nan => nan
  | posInf => posInf
  | negInf => nan
  | fin q => if q < 0 then nan else if q = 0 then negInf else fin (ln q)

/-- A finite value that is zero or more. -/
def IsNonNegative : F64 → Prop
  | fin q => 0 ≤ q
  | _ => False

end F64

/-! ## Ranking engine (`tfidf.go`) -/

/-- The struct `Document` of `indexer.go`. -/
structure Document where
  URL : String
  Ranking : F64
  QueryWeight : GoMap F64
deriving DecidableEq

/-- The inner loop of `CalculateDF` for one document. -/
def countDocument (searchTokens : List String) (df : GoMap Int) (doc : PageInfo) : GoMap Int :=
  searchTokens.foldl
    (fun df word =>
      if (doc.ContentTokens.get? word).isSome then df.set word (df.getD word 0 + 1) else df)
    df

/-- The function `CalculateDF` of `tfidf.go`. -/
def CalculateDF (docs : List PageInfo) (searchTokens : List String) : GoMap Int :=
  let df := searchTokens.foldl (fun df word => df.set word 0) GoMap.empty
  docs.foldl (countDocument searchTokens) df

/-- The function `CalculateIDF` of `tfidf.go`; `ln` is `math.Log` on finite positive
values. -/
def CalculateIDF (ln : ℚ → ℚ) (docs : List PageInfo) (searchTokens : List String)
    (df : GoMap Int) : GoMap F64 :=
  let corpus_len : Int := docs.length
  searchTokens.foldl
    (fun idf word =>
      idf.set word (F64.log ln (F64.div (F64.ofInt corpus_len) (F64.ofInt (df.getD word 0)))))
    GoMap.empty

/-- The value of an `int` after an addition: the sum, wrapped to 64 bits. -/
def wrapInt64 (x : Int) : Int := (x + 2 ^ 63) % 2 ^ 64 - 2 ^ 63

/-- The variable `total_words` of `CalculateTFIDF` after its loop over
`page.ContentTokens`. -/
def total_words (page : PageInfo) : Int :=
  page.ContentTokens.values.foldl (fun total v => wrapInt64 (total + v)) 0

/-- The loop of `CalculateTFIDF` over the query words, on the pair of `tfidfScore` and
`doc.QueryWeight`. -/
def scoreDocument (idf : GoMap F64) (page : PageInfo) (searchTokens : List String) :
    F64 × GoMap F64 :=
  searchTokens.foldl
    (fun acc word =>
      let tf := F64.div (F64.ofInt (page.ContentTokens.getD word 0)) (F64.ofInt (total_words page))
      (F64.add acc.1 (F64.mul tf (idf.getD word (F64.fin 0))), acc.2.set word tf))
    (F64.fin 0, GoMap.empty)

/-- The function `CalculateTFIDF` of `tfidf.go`. -/
def CalculateTFIDF (ln : ℚ → ℚ) (docs : List PageInfo) (searchTokens : List String) :
    List Document :=
  let df := CalculateDF docs searchTokens
  let idf := CalculateIDF ln docs searchTokens df
  docs.foldl
    (fun tfidfResults page =>
      let scored := scoreDocument idf page searchTokens
      let doc : Document :=
        { URL := page.HTTPResponse.URL, Ranking := scored.1, QueryWeight := scored.2 }
      tfidfResults ++ [doc])
    []

/-- Scanner of `strings.Split(s, " ")`: `cur` is the piece being read, in reverse. -/
def splitAux : List Char → List Char → List String
  | cur, [] => [String.mk cur.reverse]
  | cur, c :: cs =>
    if c = ' ' then String.mk cur.reverse :: splitAux [] cs else splitAux (c :: cur) cs

/-- The method `Indexer.Search` of `indexer.go`, on the file `index.json`. -/
def Search (ln : ℚ → ℚ) (file : Option FileData) (query : String) :
    Except StoreError (List Document) :=
  match ReadPageInfoCache file with
  | Except.error e => Except.error e
  | Except.ok docs =>
    let searchTokens := splitAux [] query.toList
    Except.ok (CalculateTFIDF ln docs searchTokens)

/-- A document record with the given tokens and nothing else. -/
def pageOf (url : String) (tokens : GoMap Int) : PageInfo :=
  { PageInfo.zero with
    HTTPResponse := { PageInfo.zero.HTTPResponse with URL := url }, ContentTokens := tokens }

/-- The corpus of the end-to-end example of the specification: document A with the
tokens `{"fox":1,"dog":1}` and document B with `{"fox":3}`. -/
def foxCorpus : List PageInfo :=
  [pageOf "A" ((GoMap.empty.set "fox" 1).set "dog" 1), pageOf "B" (GoMap.empty.set "fox" 3)]

/-- A corpus of two documents, the second without any token. -/
def emptyPageCorpus : List PageInfo :=
  [pageOf "A" (GoMap.empty.set "fox" 1), pageOf "B" GoMap.empty]

/-- A record as `IndexDocuments` appends it: the page in `HTTPResponse.HTML` and the
counts of its tags and tokens. -/
def fetchedPage : PageInfo :=
  { HTTPResponse :=
      { StatusCode := 200, URL := "http://a.example/", Redirected := false, HTML := "<p>hi</p>",
        RedirectHistory := [] },
    HTMLTags := HTMLTagsFrequency "<p>hi</p>",
    ContentTokens := ContentTokensFrequency "<p>hi</p>",
    Timestamp := "04-11-2026 10:00:00" }

/-- A stand-in for `math.Log` in examples: it has the sign of the logarithm at every
positive argument and is zero at 1. -/
def lnModel (x : ℚ) : ℚ := x - 1

/-! ## The tokenizer as the specification words it -/

/-- A line break of the specification: line feed or carriage return. -/
def isLineBreak (c : Char) : Bool := decide (c.toNat = 10) || decide (c.toNat = 13)

/-- Step 2 of `tokenFrequency` in the specification: every character that is neither a
word character nor a line break becomes one space. -/
def replaceSpec (s : String) : String :=
  String.mk (s.toList.map (fun c => if isWordChar c || isLineBreak c then c else ' '))

/-- Split at every white-space character; a piece may be empty. -/
def splitWhitespaceAux : List Char → List Char → List String
  | cur, [] => [String.mk cur.reverse]
  | cur, c :: cs =>
    if isSpace c then String.mk cur.reverse :: splitWhitespaceAux [] cs
    else splitWhitespaceAux (c :: cur) cs

/-- The function `tokenFrequency` of the specification, step by step. -/
def tokenFrequencySpec (text : String) : GoMap Int :=
  let lowered := ToLower text
  let spaced := replaceSpec lowered
  let candidates := (splitWhitespaceAux [] spaced.toList).filter (fun w => w ≠ "")
  let kept := candidates.filter (fun w => !containsDigit w)
  kept.foldl increment GoMap.empty

/-! ## Markup made of simple tags and text -/

/-- A piece of markup: an opening tag `<name>`, a closing tag `</name>`, a tag without
a name `<inner>`, or text. -/
inductive Piece where
  | opening (name : String)
  | closing (name : String)
  | nameless (inner : String)
  | text (t : String)

namespace Piece

/-- The characters of a piece. -/
def render : Piece → List Char
  | opening name => '<' :: (name.toList ++ ['>'])
  | closing name => '<' :: '/' :: (name.toList ++ ['>'])
  | nameless inner => '<' :: (inner.toList ++ ['>'])
  | text t => t.toList

/-- The shape of a piece: a name is a run of word characters, not empty in an opening
tag; a tag without a name holds no angle bracket and does not start with a word
character (as `< >`); text holds no angle bracket. -/
def WellFormed : Piece → Prop
  | opening name => name.toList ≠ [] ∧ ∀ c ∈ name.toList, isWordChar c = true
  | closing name => ∀ c ∈ name.toList, isWordChar c = true
  | nameless inner =>
    (∀ c ∈ inner.toList, c ≠ '<' ∧ c ≠ '>') ∧ ∀ c ∈ inner.toList.head?, isWordChar c = false
  | text t => ∀ c ∈ t.toList, c ≠ '<' ∧ c ≠ '>'

/-- Whether the piece is the opening tag `<name>`. -/
def isOpening (name : String) : Piece → Bool
  | opening n => decide (n = name)
  | _ => false

end Piece

/-- The markup made of the pieces, in order. -/
def renderMarkup (pieces : List Piece) : String :=
  String.mk (pieces.flatMap Piece.render)

/-- The number of opening tags `<name>` among the pieces. -/
def openingCount (name : String) (pieces : List Piece) : Nat :=
  pieces.countP (Piece.isOpening name)

/-- The number of documents whose `ContentTokens` have the key `term`. -/
def documentsContaining (term : String) (docs : List PageInfo) : Nat :=
  docs.countP (fun doc => (doc.ContentTokens.get? term).isSome)

/-! ## Auxiliary definitions of the proofs -/

/-- The binding of a key after `n` increments of it, starting from the binding `o`. -/
def bump (o : Option Int) (n : Nat) : Option Int :=
  if n = 0 then o else some (o.getD 0 + n)

/-- The words that the loop of `ContentTokensFrequency` counts. -/
def isCounted (w : String) : Bool := decide (w.length ≠ 0) && !containsDigit w

/-- The captures that a piece gives to `FindAllStringSubmatch`. -/
def Piece.capture : Piece → List String
  | Piece.opening name => [name]
  | Piece.closing _ => [""]
  | Piece.nameless _ => [""]
  | Piece.text _ => []

/-- The variable `tf` of `CalculateTFIDF` for a page and a word. -/
def termFrequency (page : PageInfo) (word : String) : F64 :=
  F64.div (F64.ofInt (page.ContentTokens.getD word 0)) (F64.ofInt (total_words page))

/-! ## Lemmas on maps -/

theorem lookupEntry_insertEntry_self {V : Type} (k : String) (v : V) (l : List (String × V)) :
    lookupEntry k (insertEntry k v l) = some v := by
  induction l with
  | nil => simp [insertEntry, lookupEntry]
  | cons e rest ih =>
    obtain ⟨k', v'⟩ := e
    unfold insertEntry
    split_ifs with h₁ h₂
    · simp [lookupEntry]
    · simp [lookupEntry]
    · simp [lookupEntry, h₂, ih]

theorem lookupEntry_insertEntry_ne {V : Type} (k x : String) (v : V) (l : List (String × V))
    (hx : x ≠ k) : lookupEntry x (insertEntry k v l) = lookupEntry x l := by
  induction l with
  | nil => simp [insertEntry, lookupEntry, hx]
  | cons e rest ih =>
    obtain ⟨k', v'⟩ := e
    unfold insertEntry
    split_ifs with h₁ h₂
    · simp [lookupEntry, hx]
    · subst h₂
      simp [lookupEntry, hx]
    · simp [lookupEntry, ih]

theorem lookupEntry_of_mem {V : Type} (k : String) (v : V) (l : List (String × V))
    (ho : (l.map Prod.fst).Pairwise keyLt) (h : (k, v) ∈ l) : lookupEntry k l = some v := by
  induction l with
  | nil => cases h
  | cons e rest ih =>
    obtain ⟨k', v'⟩ := e
    simp only [List.map_cons, List.pairwise_cons] at ho
    rcases List.mem_cons.mp h with he | hr
    · cases he
      simp [lookupEntry]
    · have hlt : keyLt k' k := ho.1 k (List.mem_map.mpr ⟨(k, v), hr, rfl⟩)
      have hne : ¬ k = k' := fun hc => keyLt_irrefl k (by rw [← hc] at hlt; exact hlt)
      simp only [lookupEntry, if_neg hne]
      exact ih ho.2 hr

namespace GoMap

theorem get?_of_mem_entries {V : Type} (m : GoMap V) (k : String) (v : V)
    (h : (k, v) ∈ m.entries) : m.get? k = some v :=
  lookupEntry_of_mem k v m.entries m.ordered h

theorem ext_entries {V : Type} {a b : GoMap V} (h : a.entries = b.entries) : a = b := by
  cases a; cases b; cases h; rfl

theorem get?_empty {V : Type} (k : String) : (GoMap.empty : GoMap V).get? k = none := rfl

theorem get?_set_self {V : Type} (m : GoMap V) (k : String) (v : V) :
    (m.set k v).get? k = some v :=
  lookupEntry_insertEntry_self k v m.entries

theorem get?_set_ne {V : Type} (m : GoMap V) (k x : String) (v : V) (hx : x ≠ k) :
    (m.set k v).get? x = m.get? x :=
  lookupEntry_insertEntry_ne k x v m.entries hx

theorem get?_set {V : Type} (m : GoMap V) (k x : String) (v : V) :
    (m.set k v).get? x = if x = k then some v else m.get? x := by
  split_ifs with h
  · rw [h, get?_set_self]
  · rw [get?_set_ne m k x v h]

end GoMap

theorem bump_zero (o : Option Int) : bump o 0 = o := by simp [bump]

theorem bump_bump (o : Option Int) (a b : Nat) : bump (bump o a) b = bump o (a + b) := by
  unfold bump
  by_cases ha : a = 0 <;> by_cases hb : b = 0 <;> simp [ha, hb]
  ring

theorem get?_increment (m : GoMap Int) (w k : String) :
    (increment m w).get? k = bump (m.get? k) (if w = k then 1 else 0) := by
  unfold increment
  rw [GoMap.get?_set]
  by_cases h : k = w
  · subst h
    simp [bump, GoMap.getD]
  · have h' : ¬ w = k := fun e => h e.symm
    simp [h, h', bump]

theorem get?_foldl_increment (l : List String) (m : GoMap Int) (k : String) :
    (l.foldl increment m).get? k = bump (m.get? k) (l.count k) := by
  induction l generalizing m with
  | nil => simp [bump]
  | cons w rest ih =>
    rw [List.foldl_cons, ih, get?_increment, bump_bump, List.count_cons]
    congr 1
    by_cases h : w = k
    · simp [h]; omega
    · simp [h]

theorem foldl_set_get? {V : Type} (g : String → V) (l : List String) (m : GoMap V) (k : String) :
    (l.foldl (fun m w => m.set w (g w)) m).get? k = if k ∈ l then some (g k) else m.get? k := by
  induction l generalizing m with
  | nil => simp
  | cons w rest ih =>
    rw [List.foldl_cons, ih, GoMap.get?_set]
    by_cases h₁ : k ∈ rest
    · simp [h₁]
    · by_cases h₂ : k = w
      · simp [h₂]
      · simp [h₁, h₂]

/-! ## Lemmas on the tokenizer -/

theorem ascii_char (c : Char) (h : c.toNat < 128) : ∃ n : Fin 128, c = Char.ofNat n.val :=
  ⟨⟨c.toNat, h⟩, (Char.ofNat_toNat c).symm⟩

theorem toLowerRune_toUpperRune_ascii :
    ∀ n : Fin 128, toLowerRune (toUpperRune (Char.ofNat n.val)) = toLowerRune (Char.ofNat n.val) := by
  decide

theorem toLowerRune_toUpperRune (c : Char) (h₁ : c.toNat ≠ 0x131) (h₂ : c.toNat ≠ 0x17F) :
    toLowerRune (toUpperRune c) = toLowerRune c := by
  by_cases h : c.toNat < 128
  · obtain ⟨n, rfl⟩ := ascii_char c h
    exact toLowerRune_toUpperRune_ascii n
  · have hu : toUpperRune c = c := by
      unfold toUpperRune
      rw [if_neg (by omega), if_neg h₁, if_neg h₂]
    rw [hu]

theorem ToLower_ToUpper (s : String) (h : ∀ c ∈ s.toList, c.toNat ≠ 0x131 ∧ c.toNat ≠ 0x17F) :
    ToLower (ToUpper s) = ToLower s := by
  unfold ToLower ToUpper
  congr 1
  show List.map toLowerRune (List.map toUpperRune s.toList) = List.map toLowerRune s.toList
  rw [List.map_map]
  apply List.map_congr_left
  intro c hc
  exact toLowerRune_toUpperRune c (h c hc).1 (h c hc).2

theorem mk_ne_empty (cur : List Char) : String.mk cur.reverse ≠ "" ↔ cur ≠ [] := by
  constructor
  · intro h hc
    apply h
    rw [hc]
    rfl
  · intro h hc
    apply h
    have : (String.mk cur.reverse).data = "".data := by rw [hc]
    simpa using this

theorem filter_splitWhitespaceAux (cur l : List Char) :
    (splitWhitespaceAux cur l).filter (fun w => w ≠ "") = fieldsAux cur l := by
  induction l generalizing cur with
  | nil =>
    unfold splitWhitespaceAux fieldsAux
    by_cases h : cur = []
    · subst h
      rfl
    · simp [h, (mk_ne_empty cur).mpr h]
  | cons c cs ih =>
    unfold splitWhitespaceAux fieldsAux
    by_cases hs : isSpace c = true
    · simp only [hs, if_true]
      by_cases h : cur = []
      · subst h
        simp only [if_true]
        rw [← ih]
        rfl
      · rw [← ih []]
        simp [h, (mk_ne_empty cur).mpr h]
    · simp only [hs, if_false]
      exact ih (c :: cur)

theorem fieldsAux_map_congr (f g : Char → Char) (l cur : List Char)
    (h : ∀ c ∈ l, f c = g c ∨ (isSpace (f c) = true ∧ isSpace (g c) = true)) :
    fieldsAux cur (l.map f) = fieldsAux cur (l.map g) := by
  induction l generalizing cur with
  | nil => rfl
  | cons c cs ih =>
    have hcs : ∀ c ∈ cs, f c = g c ∨ (isSpace (f c) = true ∧ isSpace (g c) = true) :=
      fun x hx => h x (List.mem_cons_of_mem c hx)
    simp only [List.map_cons]
    rcases h c (List.mem_cons_self c cs) with he | ⟨hf, hg⟩
    · rw [he]
      unfold fieldsAux
      simp only [ih _ hcs]
    · unfold fieldsAux
      simp only [hf, hg, if_true, ih _ hcs]

theorem isSpace_lineBreak (c : Char) (h : isLineBreak c = true) : isSpace c = true := by
  unfold isLineBreak at h
  unfold isSpace
  simp only [Bool.or_eq_true, decide_eq_true_eq] at h ⊢
  omega

theorem isSpace_space : isSpace ' ' = true := by decide

theorem Fields_replaceSpec (s : String) :
    fieldsAux [] (replaceSpec s).toList = Fields (replaceNonWord s) := by
  unfold Fields replaceSpec replaceNonWord
  show fieldsAux [] (List.map _ s.toList) = fieldsAux [] (List.map _ s.toList)
  apply fieldsAux_map_congr
  intro c _
  by_cases hw : isWordChar c = true
  · left
    simp [hw]
  · by_cases hl : isLineBreak c = true
    · right
      simp [hw, hl, isSpace_space, isSpace_lineBreak c hl]
    · left
      simp [hw, hl]

theorem foldl_countToken (l : List String) (m : GoMap Int) :
    l.foldl countToken m = (l.filter isCounted).foldl increment m := by
  induction l generalizing m with
  | nil => rfl
  | cons w rest ih =>
    rw [List.foldl_cons, ih]
    unfold countToken isCounted
    by_cases h₁ : w.length = 0
    · simp [h₁, List.filter_cons]
    · by_cases h₂ : containsDigit w = true
      · simp [h₁, h₂, List.filter_cons]
      · simp [h₁, h₂, List.filter_cons]

theorem mem_fieldsAux_ne_empty (cur l : List Char) (w : String) (h : w ∈ fieldsAux cur l) :
    w ≠ "" := by
  rw [← filter_splitWhitespaceAux] at h
  simpa using (List.mem_filter.mp h).2

theorem length_ne_zero_of_ne_empty (w : String) (h : w ≠ "") : w.length ≠ 0 := by
  intro h0
  apply h
  have hd : w.data = [] := List.length_eq_zero.mp h0
  cases w
  simp only at hd
  rw [hd]

theorem ne_empty_of_length_ne_zero (w : String) (h : w.length ≠ 0) : w ≠ "" := by
  intro he
  apply h
  rw [he]
  rfl

/-! ## Properties of the tokenizer -/

/-- C4: for every input, `ContentTokensFrequency` returns the counts that the
algorithm of the specification gives (lowercase; every character that is neither a
word character nor a line break becomes a space; split on white space and drop the
empty candidates; drop the candidates with a digit; count).  That the code turns the
line breaks into spaces too makes no difference. -/
theorem ContentTokensFrequency_eq_spec (content : String) :
    ContentTokensFrequency content = tokenFrequencySpec content := by
  unfold ContentTokensFrequency tokenFrequencySpec
  simp only []
  rw [foldl_countToken, filter_splitWhitespaceAux, Fields_replaceSpec]
  congr 1
  apply List.filter_congr
  intro w hw
  have hne : w ≠ "" := mem_fieldsAux_ne_empty _ _ w hw
  simp [isCounted, length_ne_zero_of_ne_empty w hne]

/-- C5, amended: for every string without the code points U+0131 (dotless i) and U+017F
(long s), so for every ASCII string, `ContentTokensFrequency` gives the same map on
the string and on its upper-cased form. -/
theorem ContentTokensFrequency_ToUpper (s : String)
    (h : ∀ c ∈ s.toList, c.toNat ≠ 0x131 ∧ c.toNat ≠ 0x17F) :
    ContentTokensFrequency (ToUpper s) = ContentTokensFrequency s := by
  unfold ContentTokensFrequency
  simp only [ToLower_ToUpper s h]

/-- C5, witness: the string `The Quick fox` has neither code point. -/
theorem ContentTokensFrequency_ToUpper_witness :
    (∀ c ∈ "The Quick fox".toList, c.toNat ≠ 0x131 ∧ c.toNat ≠ 0x17F) ∧
      ContentTokensFrequency (ToUpper "The Quick fox") = ContentTokensFrequency "The Quick fox" :=
  ⟨by decide, ContentTokensFrequency_ToUpper "The Quick fox" (by decide)⟩

/-- C5, counterexample: the upper case of the long s (U+017F) is the ASCII letter `S`,
so the upper-cased string has the token `s` and the string itself has no token. -/
theorem ContentTokensFrequency_ToUpper_counterexample :
    ToUpper "ſ" = "S" ∧ (ContentTokensFrequency "ſ").entries = [] ∧
      (ContentTokensFrequency (ToUpper "ſ")).entries = [("s", 1)] ∧
      ContentTokensFrequency "ſ" ≠ ContentTokensFrequency (ToUpper "ſ") := by
  decide

theorem ContentTokensFrequency_get? (content k : String) (v : Int)
    (h : (ContentTokensFrequency content).get? k = some v) :
    k ≠ "" ∧ containsDigit k = false ∧ 1 ≤ v := by
  unfold ContentTokensFrequency at h
  simp only [] at h
  rw [foldl_countToken, get?_foldl_increment, GoMap.get?_empty] at h
  unfold bump at h
  by_cases h0 : List.count k ((Fields (replaceNonWord (ToLower content))).filter isCounted) = 0
  · rw [if_pos h0] at h
    cases h
  · rw [if_neg h0] at h
    have hk : k ∈ (Fields (replaceNonWord (ToLower content))).filter isCounted :=
      List.count_pos_iff.mp (Nat.pos_of_ne_zero h0)
    have hc := (List.mem_filter.mp hk).2
    unfold isCounted at hc
    simp only [Bool.and_eq_true, decide_eq_true_eq, Bool.not_eq_true'] at hc
    refine ⟨ne_empty_of_length_ne_zero k hc.1, hc.2, ?_⟩
    simp only [Option.getD_none, zero_add, Option.some.injEq] at h
    omega

/-- C6: every entry of the map that `ContentTokensFrequency` returns has a key that is
not the empty string and holds no digit, and a count of at least 1. -/
theorem ContentTokensFrequency_entry (content k : String) (v : Int)
    (h : (k, v) ∈ (ContentTokensFrequency content).entries) :
    k ≠ "" ∧ containsDigit k = false ∧ 1 ≤ v :=
  ContentTokensFrequency_get? content k v
    (GoMap.get?_of_mem_entries (ContentTokensFrequency content) k v h)

/-- C6, witness: the entry of `fox` in the map of `The fox, the 2nd fox`. -/
theorem ContentTokensFrequency_entry_witness :
    ("fox", (2 : Int)) ∈ (ContentTokensFrequency "The fox, the 2nd fox").entries ∧
      ("fox" ≠ "" ∧ containsDigit "fox" = false ∧ (1 : Int) ≤ 2) :=
  ⟨by decide, ContentTokensFrequency_entry "The fox, the 2nd fox" "fox" 2 (by decide)⟩

/-! ## Lemmas on the scan for tags -/

theorem takeWhile_append_stop {p : Char → Bool} (l r : List Char) (x : Char) (hx : p x = false) :
    (l ++ x :: r).takeWhile p = l.takeWhile p := by
  induction l with
  | nil => simp [List.takeWhile, hx]
  | cons c cs ih =>
    by_cases hc : p c = true
    · simp [List.takeWhile_cons, hc, ih]
    · simp [List.takeWhile_cons, hc]

theorem dropWhile_append_stop {p : Char → Bool} (l r : List Char) (x : Char) (hx : p x = false) :
    (l ++ x :: r).dropWhile p = l.dropWhile p ++ x :: r := by
  induction l with
  | nil => simp [List.dropWhile, hx]
  | cons c cs ih =>
    by_cases hc : p c = true
    · simp [List.dropWhile_cons, hc, ih]
    · simp [List.dropWhile_cons, hc]

theorem takeWhile_all {p : Char → Bool} (l : List Char) (h : ∀ c ∈ l, p c = true) :
    l.takeWhile p = l := by
  induction l with
  | nil => rfl
  | cons c cs ih =>
    rw [List.takeWhile_cons, if_pos (h c (List.mem_cons_self c cs)),
      ih (fun x hx => h x (List.mem_cons_of_mem c hx))]

theorem dropWhile_all {p : Char → Bool} (l : List Char) (h : ∀ c ∈ l, p c = true) :
    l.dropWhile p = [] := by
  induction l with
  | nil => rfl
  | cons c cs ih =>
    rw [List.dropWhile_cons, if_pos (h c (List.mem_cons_self c cs)),
      ih (fun x hx => h x (List.mem_cons_of_mem c hx))]

theorem isWordChar_gt : isWordChar '>' = false := by decide

theorem matchTagAt_tag (body rest : List Char) (h : ∀ c ∈ body, c ≠ '>') :
    matchTagAt ('<' :: (body ++ '>' :: rest)) =
      some (body.takeWhile isWordChar, body.length + 2) := by
  have hne : ∀ c ∈ body.dropWhile isWordChar, (decide (c ≠ '>')) = true := by
    intro c hc
    have hmem : c ∈ body := (List.dropWhile_sublist isWordChar).subset hc
    simpa using h c hmem
  have hstop : (fun x : Char => decide (x ≠ '>')) '>' = false := by decide
  unfold matchTagAt
  simp only [if_true]
  rw [dropWhile_append_stop body rest '>' isWordChar_gt,
    takeWhile_append_stop body rest '>' isWordChar_gt,
    dropWhile_append_stop _ rest '>' hstop, takeWhile_append_stop _ rest '>' hstop,
    dropWhile_all _ hne, takeWhile_all _ hne]
  simp only [List.nil_append]
  have hlen : (body.takeWhile isWordChar).length + (body.dropWhile isWordChar).length =
      body.length := by
    rw [← List.length_append, List.takeWhile_append_dropWhile]
  congr 2
  omega

theorem findAllTags_skip (k : Nat) (l : List Char) :
    findAllTags k l = findAllTags 0 (l.drop k) := by
  induction l generalizing k with
  | nil => cases k <;> rfl
  | cons c cs ih =>
    cases k with
    | zero => rfl
    | succ k =>
      show findAllTags k cs = _
      rw [ih k]
      rfl

theorem findAllTags_zero_cons (c : Char) (cs : List Char) :
    findAllTags 0 (c :: cs) =
      match matchTagAt (c :: cs) with
      | some (name, len) => String.mk name :: findAllTags (len - 1) cs
      | none => findAllTags 0 cs := by
  rw [findAllTags]

theorem findAllTags_tag (body rest : List Char) (h : ∀ c ∈ body, c ≠ '>') :
    findAllTags 0 ('<' :: (body ++ '>' :: rest)) =
      String.mk (body.takeWhile isWordChar) :: findAllTags 0 rest := by
  have hm := matchTagAt_tag body rest h
  rw [findAllTags_zero_cons, hm]
  simp only []
  rw [findAllTags_skip]
  have hd : List.drop (body.length + 2 - 1) (body ++ '>' :: rest) = rest := by
    have : body.length + 2 - 1 = body.length + 1 := by omega
    rw [this, List.drop_append_eq_append_drop]
    simp
  rw [hd]

theorem findAllTags_text (t rest : List Char) (h : ∀ c ∈ t, c ≠ '<') :
    findAllTags 0 (t ++ rest) = findAllTags 0 rest := by
  induction t with
  | nil => rfl
  | cons c cs ih =>
    have hc : c ≠ '<' := h c (List.mem_cons_self c cs)
    show findAllTags 0 (c :: (cs ++ rest)) = _
    have hm : matchTagAt (c :: (cs ++ rest)) = none := by
      unfold matchTagAt
      simp [hc]
    rw [findAllTags_zero_cons, hm]
    exact ih (fun x hx => h x (List.mem_cons_of_mem c hx))

theorem ne_gt_of_isWordChar (c : Char) (h : isWordChar c = true) : c ≠ '>' := by
  intro hc
  rw [hc, isWordChar_gt] at h
  cases h

theorem findAllTags_piece (p : Piece) (rest : List Char) (h : p.WellFormed) :
    findAllTags 0 (p.render ++ rest) = p.capture ++ findAllTags 0 rest := by
  cases p with
  | opening name =>
    obtain ⟨_, hw⟩ := h
    have hb : ∀ c ∈ name.toList, c ≠ '>' := fun c hc => ne_gt_of_isWordChar c (hw c hc)
    show findAllTags 0 ('<' :: ((name.toList ++ ['>']) ++ rest)) = _
    rw [List.append_assoc, List.singleton_append, findAllTags_tag _ _ hb, takeWhile_all _ hw]
    rfl
  | closing name =>
    have hw : ∀ c ∈ name.toList, isWordChar c = true := h
    have hb : ∀ c ∈ '/' :: name.toList, c ≠ '>' := by
      intro c hc
      rcases List.mem_cons.mp hc with rfl | hc
      · decide
      · exact ne_gt_of_isWordChar c (hw c hc)
    show findAllTags 0 ('<' :: (('/' :: (name.toList ++ ['>'])) ++ rest)) = _
    have e : ('/' :: (name.toList ++ ['>'])) ++ rest = ('/' :: name.toList) ++ '>' :: rest := by
      simp
    rw [e, findAllTags_tag _ _ hb]
    rfl
  | nameless inner =>
    obtain ⟨hb, hh⟩ := h
    show findAllTags 0 ('<' :: ((inner.toList ++ ['>']) ++ rest)) = _
    rw [List.append_assoc, List.singleton_append, findAllTags_tag _ _ (fun c hc => (hb c hc).2)]
    have ht : inner.toList.takeWhile isWordChar = [] := by
      cases hi : inner.toList with
      | nil => rfl
      | cons c cs =>
        have : isWordChar c = false := hh c (by rw [hi]; rfl)
        simp [List.takeWhile_cons, this]
    rw [ht]
    rfl
  | text t =>
    have hb : ∀ c ∈ t.toList, c ≠ '<' := fun c hc => ((h : ∀ c ∈ t.toList, _) c hc).1
    show findAllTags 0 (t.toList ++ rest) = _
    rw [findAllTags_text _ _ hb]
    rfl

theorem findAllTags_pieces (pieces : List Piece) (h : ∀ p ∈ pieces, p.WellFormed) :
    findAllTags 0 (pieces.flatMap Piece.render) = pieces.flatMap Piece.capture := by
  induction pieces with
  | nil => rfl
  | cons p ps ih =>
    rw [List.flatMap_cons, List.flatMap_cons,
      findAllTags_piece p _ (h p (List.mem_cons_self p ps)),
      ih (fun q hq => h q (List.mem_cons_of_mem p hq))]

theorem foldl_countTag (l : List String) (m : GoMap Int) :
    l.foldl countTag m = (l.filter (fun w => decide (w.length ≠ 0))).foldl increment m := by
  induction l generalizing m with
  | nil => rfl
  | cons w rest ih =>
    rw [List.foldl_cons, ih]
    unfold countTag
    by_cases h₁ : w.length = 0
    · simp [h₁, List.filter_cons]
    · simp [h₁, List.filter_cons]

theorem count_captures (name : String) (pieces : List Piece) (h : ∀ p ∈ pieces, p.WellFormed) :
    List.count name ((pieces.flatMap Piece.capture).filter (fun w => decide (w.length ≠ 0))) =
      openingCount name pieces := by
  induction pieces with
  | nil => rfl
  | cons p ps ih =>
    have ih' := ih (fun q hq => h q (List.mem_cons_of_mem p hq))
    have hp := h p (List.mem_cons_self p ps)
    unfold openingCount at ih' ⊢
    rw [List.flatMap_cons, List.filter_append, List.count_append, ih', List.countP_cons]
    cases p with
    | opening n =>
      have hn : n.length ≠ 0 := by
        intro h0
        exact hp.1 (List.length_eq_zero.mp h0)
      by_cases hname : n = name
      · subst hname
        simp [Piece.capture, Piece.isOpening, hn, List.filter_cons, List.count_cons]
        omega
      · simp [Piece.capture, Piece.isOpening, hn, hname, List.count_cons]
    | closing n => simp [Piece.capture, Piece.isOpening]
    | nameless n => simp [Piece.capture, Piece.isOpening]
    | text t => simp [Piece.capture, Piece.isOpening]

/-! ## Properties of the scan for tags -/

/-- C7: for markup made of opening tags `<name>` (name a non-empty run of word
characters), closing tags `</name>`, tags without a name such as `< >`, and text
without angle brackets, `HTMLTagsFrequency` binds each name to the number of opening
tags with that name and has no other key. -/
theorem HTMLTagsFrequency_simple_markup (pieces : List Piece)
    (h : ∀ p ∈ pieces, p.WellFormed) (name : String) :
    (HTMLTagsFrequency (renderMarkup pieces)).get? name =
      if openingCount name pieces = 0 then none else some (openingCount name pieces : Int) := by
  unfold HTMLTagsFrequency renderMarkup
  show (List.foldl countTag GoMap.empty (findAllTags 0 (pieces.flatMap Piece.render))).get? name = _
  rw [findAllTags_pieces pieces h, foldl_countTag, get?_foldl_increment, count_captures name pieces h,
    GoMap.get?_empty]
  unfold bump
  simp

/-- C7, witness: the markup `<p>hi</p>< >`, and the three examples of the
specification. -/
theorem HTMLTagsFrequency_simple_markup_witness :
    (∀ p ∈ [Piece.opening "p", Piece.text "hi", Piece.closing "p", Piece.nameless " "],
        p.WellFormed) ∧
      renderMarkup [Piece.opening "p", Piece.text "hi", Piece.closing "p", Piece.nameless " "] =
        "<p>hi</p>< >" ∧
      (HTMLTagsFrequency "<p>hi</p>< >").get? "p" = some 1 ∧
      (HTMLTagsFrequency "<p>hi</p>").entries = [("p", 1)] ∧
      (HTMLTagsFrequency "<div><div>").entries = [("div", 2)] ∧
      (HTMLTagsFrequency "< >").entries = [] := by
  have hwf : ∀ p ∈ [Piece.opening "p", Piece.text "hi", Piece.closing "p", Piece.nameless " "],
      p.WellFormed := by
    intro p hp
    simp only [List.mem_cons, List.mem_singleton, List.not_mem_nil, or_false] at hp
    rcases hp with rfl | rfl | rfl | rfl
    · exact ⟨by decide, by decide⟩
    · show ∀ c ∈ "hi".toList, c ≠ '<' ∧ c ≠ '>'
      decide
    · show ∀ c ∈ "p".toList, isWordChar c = true
      decide
    · exact ⟨by decide, by decide⟩
  have hmain := HTMLTagsFrequency_simple_markup
    [Piece.opening "p", Piece.text "hi", Piece.closing "p", Piece.nameless " "] hwf "p"
  exact ⟨hwf, by decide, hmain, by decide, by decide, by decide⟩

/-! ## Lemmas on the ranking engine -/

theorem foldl_append_singleton {α β : Type} (f : α → β) (l : List α) (init : List β) :
    l.foldl (fun acc x => acc ++ [f x]) init = init ++ l.map f := by
  induction l generalizing init with
  | nil => simp
  | cons x xs ih => simp [ih]

theorem CalculateTFIDF_eq_map (ln : ℚ → ℚ) (docs : List PageInfo) (searchTokens : List String) :
    CalculateTFIDF ln docs searchTokens =
      docs.map (fun page =>
        { URL := page.HTTPResponse.URL,
          Ranking := (scoreDocument (CalculateIDF ln docs searchTokens
            (CalculateDF docs searchTokens)) page searchTokens).1,
          QueryWeight := (scoreDocument (CalculateIDF ln docs searchTokens
            (CalculateDF docs searchTokens)) page searchTokens).2 }) := by
  unfold CalculateTFIDF
  simp only []
  rw [foldl_append_singleton]
  simp

/-! ## Properties of the ranking engine -/

/-- C8: `CalculateTFIDF` returns one `Document` for each document of the corpus, in
the order of the corpus: the result is as long as the corpus and the URL of its entry
`i` is `HTTPResponse.URL` of document `i`. -/
theorem CalculateTFIDF_one_per_document (ln : ℚ → ℚ) (docs : List PageInfo)
    (searchTokens : List String) :
    (CalculateTFIDF ln docs searchTokens).length = docs.length ∧
      ∀ i : Nat, ((CalculateTFIDF ln docs searchTokens)[i]?).map (fun d => d.URL) =
        (docs[i]?).map (fun page => page.HTTPResponse.URL) := by
  rw [CalculateTFIDF_eq_map]
  refine ⟨by simp, ?_⟩
  intro i
  rw [List.getElem?_map]
  cases docs[i]? <;> rfl

/-- C3, at the failing input: one document with the token `fox` and the query
`fox fox`.  One document has the key `fox`, and `CalculateDF` binds `fox` to 2; the
query comes from `Search`, which splits it at the spaces. -/
theorem CalculateDF_repeated_term :
    splitAux [] "fox fox".toList = ["fox", "fox"] ∧
      documentsContaining "fox" [pageOf "a" (GoMap.empty.set "fox" 1)] = 1 ∧
      (CalculateDF [pageOf "a" (GoMap.empty.set "fox" 1)] ["fox", "fox"]).get? "fox" = some 2 := by
  decide

/-! ## Document frequency, in general -/

theorem foldl_cond_increment (c : String → Bool) (l : List String) (df : GoMap Int) :
    l.foldl (fun df word => if c word = true then df.set word (df.getD word 0 + 1) else df) df =
      (l.filter c).foldl increment df := by
  induction l generalizing df with
  | nil => rfl
  | cons w rest ih =>
    rw [List.foldl_cons, ih]
    by_cases h : c w = true
    · simp [h, List.filter_cons, increment]
    · simp [h, List.filter_cons]

theorem get?_countDocument (searchTokens : List String) (df : GoMap Int) (doc : PageInfo)
    (k : String) :
    (countDocument searchTokens df doc).get? k =
      bump (df.get? k)
        (if (doc.ContentTokens.get? k).isSome = true then searchTokens.count k else 0) := by
  unfold countDocument
  rw [foldl_cond_increment (fun w => (doc.ContentTokens.get? w).isSome), get?_foldl_increment]
  congr 1
  by_cases h : (doc.ContentTokens.get? k).isSome = true
  · rw [if_pos h]
    exact List.count_filter h
  · rw [if_neg h]
    apply List.count_eq_zero_of_not_mem
    intro hm
    exact h (List.mem_filter.mp hm).2

theorem get?_foldl_countDocument (searchTokens : List String) (docs : List PageInfo)
    (df : GoMap Int) (k : String) :
    (docs.foldl (countDocument searchTokens) df).get? k =
      bump (df.get? k) (searchTokens.count k * documentsContaining k docs) := by
  induction docs generalizing df with
  | nil => simp [documentsContaining, bump]
  | cons doc rest ih =>
    rw [List.foldl_cons, ih, get?_countDocument, bump_bump]
    congr 1
    unfold documentsContaining
    rw [List.countP_cons]
    by_cases h : (doc.ContentTokens.get? k).isSome = true
    · simp only [h, if_true]
      ring
    · simp only [h]
      simp

/-- The value of `CalculateDF` at every key: a query term is bound to the number of
documents with the term, once for each time the term stands in the query. -/
theorem CalculateDF_get? (docs : List PageInfo) (searchTokens : List String) (k : String) :
    (CalculateDF docs searchTokens).get? k =
      if k ∈ searchTokens then
        some ((searchTokens.count k * documentsContaining k docs : Nat) : Int)
      else none := by
  unfold CalculateDF
  simp only []
  rw [get?_foldl_countDocument, foldl_set_get? (fun _ => (0 : Int)), GoMap.get?_empty]
  by_cases h : k ∈ searchTokens
  · simp only [h, if_true]
    unfold bump
    split_ifs with h0
    · rw [h0]
      rfl
    · simp
  · simp only [h, if_false]
    rw [List.count_eq_zero_of_not_mem h]
    simp [bump]

theorem CalculateIDF_get? (ln : ℚ → ℚ) (docs : List PageInfo) (searchTokens : List String)
    (df : GoMap Int) (k : String) :
    (CalculateIDF ln docs searchTokens df).get? k =
      if k ∈ searchTokens then
        some (F64.log ln (F64.div (F64.ofInt (docs.length : Int)) (F64.ofInt (df.getD k 0))))
      else none := by
  unfold CalculateIDF
  simp only []
  rw [foldl_set_get? (fun word =>
    F64.log ln (F64.div (F64.ofInt (docs.length : Int)) (F64.ofInt (df.getD word 0))))]
  rfl

theorem scoreDocument_fst_aux (idf : GoMap F64) (page : PageInfo) (l : List String)
    (acc : F64 × GoMap F64) :
    (l.foldl
      (fun acc word =>
        let tf := F64.div (F64.ofInt (page.ContentTokens.getD word 0))
          (F64.ofInt (total_words page))
        (F64.add acc.1 (F64.mul tf (idf.getD word (F64.fin 0))), acc.2.set word tf))
      acc).1 =
      l.foldl (fun s word =>
        F64.add s (F64.mul (termFrequency page word) (idf.getD word (F64.fin 0)))) acc.1 := by
  induction l generalizing acc with
  | nil => rfl
  | cons w rest ih =>
    rw [List.foldl_cons, List.foldl_cons, ih]
    rfl

theorem scoreDocument_fst (idf : GoMap F64) (page : PageInfo) (searchTokens : List String) :
    (scoreDocument idf page searchTokens).1 =
      searchTokens.foldl (fun s word =>
        F64.add s (F64.mul (termFrequency page word) (idf.getD word (F64.fin 0)))) (F64.fin 0) :=
  scoreDocument_fst_aux idf page searchTokens (F64.fin 0, GoMap.empty)

theorem foldl_add_nonneg (f : String → F64) (l : List String) (q : ℚ) (hq : 0 ≤ q)
    (h : ∀ w ∈ l, ∃ r : ℚ, 0 ≤ r ∧ f w = F64.fin r) :
    ∃ r : ℚ, 0 ≤ r ∧ l.foldl (fun s word => F64.add s (f word)) (F64.fin q) = F64.fin r := by
  induction l generalizing q with
  | nil => exact ⟨q, hq, rfl⟩
  | cons w rest ih =>
    obtain ⟨r, hr, hw⟩ := h w (List.mem_cons_self w rest)
    rw [List.foldl_cons, hw]
    exact ih (q + r) (add_nonneg hq hr) (fun x hx => h x (List.mem_cons_of_mem w hx))

theorem foldl_add_zero (f : String → F64) (l : List String)
    (h : ∀ w ∈ l, f w = F64.fin 0) :
    l.foldl (fun s word => F64.add s (f word)) (F64.fin 0) = F64.fin 0 := by
  induction l with
  | nil => rfl
  | cons w rest ih =>
    rw [List.foldl_cons, h w (List.mem_cons_self w rest)]
    have : F64.add (F64.fin 0) (F64.fin 0) = F64.fin 0 := by
      show F64.fin (0 + 0) = F64.fin 0
      rw [add_zero]
    rw [this]
    exact ih (fun x hx => h x (List.mem_cons_of_mem w hx))

theorem termFrequency_fin (page : PageInfo) (word : String) (h : 0 < total_words page) :
    termFrequency page word =
      F64.fin ((page.ContentTokens.getD word 0 : ℚ) / (total_words page : ℚ)) := by
  unfold termFrequency F64.ofInt F64.div
  have : ((total_words page : Int) : ℚ) ≠ 0 := by
    have : (0 : ℚ) < (total_words page : ℚ) := by exact_mod_cast h
    exact ne_of_gt this
  simp [this]

theorem documentsContaining_le (k : String) (docs : List PageInfo) :
    documentsContaining k docs ≤ docs.length :=
  List.countP_le_length _

theorem nan_mul (x : F64) : F64.mul F64.nan x = F64.nan := by
  cases x <;> rfl

theorem lnModel_nonneg (x : ℚ) (h : 1 ≤ x) : 0 ≤ lnModel x := by
  unfold lnModel
  linarith

theorem mem_CalculateTFIDF (ln : ℚ → ℚ) (docs : List PageInfo) (searchTokens : List String)
    (d : Document) (hd : d ∈ CalculateTFIDF ln docs searchTokens) :
    ∃ page ∈ docs, d.Ranking =
      searchTokens.foldl (fun s word =>
        F64.add s (F64.mul (termFrequency page word)
          ((CalculateIDF ln docs searchTokens (CalculateDF docs searchTokens)).getD word
            (F64.fin 0)))) (F64.fin 0) := by
  rw [CalculateTFIDF_eq_map] at hd
  obtain ⟨page, hp, rfl⟩ := List.mem_map.mp hd
  exact ⟨page, hp, scoreDocument_fst _ page searchTokens⟩

theorem idf_getD (ln : ℚ → ℚ) (docs : List PageInfo) (searchTokens : List String)
    (w : String) (hw : w ∈ searchTokens) :
    (CalculateIDF ln docs searchTokens (CalculateDF docs searchTokens)).getD w (F64.fin 0) =
      F64.log ln (F64.div (F64.fin (docs.length : ℚ))
        (F64.fin ((searchTokens.count w * documentsContaining w docs : Nat) : ℚ))) := by
  unfold GoMap.getD
  rw [CalculateIDF_get?, if_pos hw]
  unfold GoMap.getD
  rw [CalculateDF_get?, if_pos hw]
  simp [F64.ofInt]

/-- C9, amended: when the query terms are pairwise distinct and each of them is in at
least one document, every document has a positive `total_words` and no negative count
for a query term, and `math.Log` is zero or more from 1 on, every score returned by
`CalculateTFIDF` is a finite number that is zero or more. -/
theorem CalculateTFIDF_score_nonneg (ln : ℚ → ℚ) (hln : ∀ x : ℚ, 1 ≤ x → 0 ≤ ln x)
    (docs : List PageInfo) (searchTokens : List String) (hnodup : searchTokens.Nodup)
    (hocc : ∀ w ∈ searchTokens, ∃ page ∈ docs, (page.ContentTokens.get? w).isSome = true)
    (hdocs : ∀ page ∈ docs, 0 < total_words page ∧
      ∀ w ∈ searchTokens, 0 ≤ page.ContentTokens.getD w 0)
    (d : Document) (hd : d ∈ CalculateTFIDF ln docs searchTokens) :
    d.Ranking.IsNonNegative := by
  obtain ⟨page, hp, hr⟩ := mem_CalculateTFIDF ln docs searchTokens d hd
  obtain ⟨htot, hcnt⟩ := hdocs page hp
  have hsum := foldl_add_nonneg
    (fun word => F64.mul (termFrequency page word)
      ((CalculateIDF ln docs searchTokens (CalculateDF docs searchTokens)).getD word (F64.fin 0)))
    searchTokens 0 (le_refl 0) (by
      intro w hw
      have hc : List.count w searchTokens = 1 := List.count_eq_one_of_mem hnodup hw
      obtain ⟨q, hq, hqdoc⟩ := hocc w hw
      have hpos : 0 < documentsContaining w docs :=
        List.countP_pos_iff.mpr ⟨q, hq, hqdoc⟩
      have hle := documentsContaining_le w docs
      have hposq : (0 : ℚ) < (documentsContaining w docs : ℚ) := by exact_mod_cast hpos
      have hleq : (documentsContaining w docs : ℚ) ≤ (docs.length : ℚ) := by exact_mod_cast hle
      have hone : (1 : ℚ) ≤ (docs.length : ℚ) / (documentsContaining w docs : ℚ) := by
        rw [le_div_iff₀ hposq]
        simpa using hleq
      have hidf := idf_getD ln docs searchTokens w hw
      rw [hc, one_mul] at hidf
      have hne : (documentsContaining w docs : ℚ) ≠ 0 := ne_of_gt hposq
      have hlog : F64.log ln (F64.div (F64.fin (docs.length : ℚ))
          (F64.fin (documentsContaining w docs : ℚ))) =
          F64.fin (ln ((docs.length : ℚ) / (documentsContaining w docs : ℚ))) := by
        have hq0 : (0 : ℚ) < (docs.length : ℚ) / (documentsContaining w docs : ℚ) :=
          lt_of_lt_of_le one_pos hone
        simp [F64.div, F64.log, hne, not_lt.mpr (le_of_lt hq0), ne_of_gt hq0]
      refine ⟨((page.ContentTokens.getD w 0 : ℚ) / (total_words page : ℚ)) *
        ln ((docs.length : ℚ) / (documentsContaining w docs : ℚ)), ?_, ?_⟩
      · apply mul_nonneg
        · apply div_nonneg
          · exact_mod_cast hcnt w hw
          · exact_mod_cast le_of_lt htot
        · exact hln _ hone
      · show F64.mul _ _ = _
        rw [hidf, hlog, termFrequency_fin page w htot]
        rfl)
  obtain ⟨r, hr0, hre⟩ := hsum
  rw [hr, hre]
  exact hr0

/-- C10: a query term that is in every document has weight zero.  For a corpus that is
not empty, whose documents all have a positive `total_words` and the key `t`, and with
`math.Log 1 = 0`, the query `[t]` gives `df[t] = len(docs)`, `idf[t] = 0` and the score
0 for every document. -/
theorem term_in_every_document_scores_zero (ln : ℚ → ℚ) (hln : ln 1 = 0)
    (docs : List PageInfo) (t : String) (hne : docs ≠ [])
    (hdocs : ∀ page ∈ docs, 0 < total_words page ∧ (page.ContentTokens.get? t).isSome = true) :
    (CalculateDF docs [t]).get? t = some (docs.length : Int) ∧
      (CalculateIDF ln docs [t] (CalculateDF docs [t])).get? t = some (F64.fin 0) ∧
      ∀ d ∈ CalculateTFIDF ln docs [t], d.Ranking = F64.fin 0 := by
  have hall : documentsContaining t docs = docs.length := by
    unfold documentsContaining
    rw [List.countP_eq_length]
    exact fun page hp => (hdocs page hp).2
  have hlen : (0 : ℚ) < (docs.length : ℚ) := by
    have : 0 < docs.length := List.length_pos.mpr hne
    exact_mod_cast this
  have hidf : (CalculateIDF ln docs [t] (CalculateDF docs [t])).getD t (F64.fin 0) =
      F64.fin 0 := by
    rw [idf_getD ln docs [t] t (List.mem_singleton.mpr rfl), hall]
    simp [F64.div, F64.log, ne_of_gt hlen, hln]
  refine ⟨?_, ?_, ?_⟩
  · rw [CalculateDF_get?, if_pos (List.mem_singleton.mpr rfl), hall]
    simp
  · have h := CalculateIDF_get? ln docs [t] (CalculateDF docs [t]) t
    rw [if_pos (List.mem_singleton.mpr rfl)] at h
    unfold GoMap.getD at hidf
    rw [h] at hidf ⊢
    simpa using hidf
  · intro d hd
    obtain ⟨page, hp, hr⟩ := mem_CalculateTFIDF ln docs [t] d hd
    rw [hr]
    apply foldl_add_zero
    intro w hw
    rw [List.mem_singleton.mp hw, hidf, termFrequency_fin page t (hdocs page hp).1]
    show F64.fin (_ * 0) = F64.fin 0
    rw [mul_zero]

/-- C9, witness: the corpus of the specification with the query `fox dog`. -/
theorem CalculateTFIDF_score_nonneg_witness :
    (∀ x : ℚ, 1 ≤ x → 0 ≤ lnModel x) ∧ ["fox", "dog"].Nodup ∧
      (∀ w ∈ ["fox", "dog"], ∃ page ∈ foxCorpus, (page.ContentTokens.get? w).isSome = true) ∧
      (∀ page ∈ foxCorpus, 0 < total_words page ∧
        ∀ w ∈ ["fox", "dog"], 0 ≤ page.ContentTokens.getD w 0) ∧
      ∀ d ∈ CalculateTFIDF lnModel foxCorpus ["fox", "dog"], d.Ranking.IsNonNegative :=
  ⟨lnModel_nonneg, by decide, by decide, by decide,
    fun d hd => CalculateTFIDF_score_nonneg lnModel lnModel_nonneg foxCorpus ["fox", "dog"]
      (by decide) (by decide) (by decide) d hd⟩

/-- C9, counterexample: the term `fox` is in the first of two documents and the second
document has no token.  Its `total_words` is 0, its `tf` is `0 / 0`, and its score is
NaN, whatever `math.Log` returns. -/
theorem CalculateTFIDF_score_counterexample :
    (∀ w ∈ ["fox"], ∃ page ∈ emptyPageCorpus, (page.ContentTokens.get? w).isSome = true) ∧
      ∀ ln : ℚ → ℚ, ∃ d ∈ CalculateTFIDF ln emptyPageCorpus ["fox"],
        d.Ranking = F64.nan ∧ ¬ d.Ranking.IsNonNegative := by
  refine ⟨by decide, ?_⟩
  intro ln
  have htf : termFrequency (pageOf "B" GoMap.empty) "fox" = F64.nan := by decide
  have hrank : (scoreDocument (CalculateIDF ln emptyPageCorpus ["fox"]
      (CalculateDF emptyPageCorpus ["fox"])) (pageOf "B" GoMap.empty) ["fox"]).1 = F64.nan := by
    rw [scoreDocument_fst]
    simp only [List.foldl_cons, List.foldl_nil, htf, nan_mul]
    rfl
  refine ⟨Document.mk "B"
    (scoreDocument (CalculateIDF ln emptyPageCorpus ["fox"]
      (CalculateDF emptyPageCorpus ["fox"])) (pageOf "B" GoMap.empty) ["fox"]).1
    (scoreDocument (CalculateIDF ln emptyPageCorpus ["fox"]
      (CalculateDF emptyPageCorpus ["fox"])) (pageOf "B" GoMap.empty) ["fox"]).2, ?_, hrank, ?_⟩
  · rw [CalculateTFIDF_eq_map]
    exact List.mem_map.mpr ⟨pageOf "B" GoMap.empty, by decide, rfl⟩
  · show ¬ F64.IsNonNegative _
    rw [hrank]
    exact fun h => h

/-- C10, witness: the corpus of the specification, `{"fox":1,"dog":1}` and `{"fox":3}`,
with the query `fox`: `df` is `{"fox": 2}` and both scores are 0. -/
theorem term_in_every_document_scores_zero_witness :
    lnModel 1 = 0 ∧ foxCorpus ≠ [] ∧
      (∀ page ∈ foxCorpus, 0 < total_words page ∧
        (page.ContentTokens.get? "fox").isSome = true) ∧
      (CalculateDF foxCorpus ["fox"]).entries = [("fox", 2)] ∧
      ((CalculateDF foxCorpus ["fox"]).get? "fox" = some (foxCorpus.length : Int) ∧
        (CalculateIDF lnModel foxCorpus ["fox"] (CalculateDF foxCorpus ["fox"])).get? "fox" =
          some (F64.fin 0) ∧
        ∀ d ∈ CalculateTFIDF lnModel foxCorpus ["fox"], d.Ranking = F64.fin 0) :=
  ⟨by norm_num [lnModel], by decide, by decide, by decide,
    term_in_every_document_scores_zero lnModel (by norm_num [lnModel]) foxCorpus "fox" (by decide)
      (by decide)⟩

/-! ## Lemmas on the corpus store -/

theorem insertEntry_append {V : Type} (k : String) (v : V) (l : List (String × V))
    (h : ∀ x ∈ l.map Prod.fst, keyLt x k) : insertEntry k v l = l ++ [(k, v)] := by
  induction l with
  | nil => rfl
  | cons e rest ih =>
    obtain ⟨k', v'⟩ := e
    have hk : keyLt k' k := h k' (by simp)
    have h₁ : ¬ keyLt k k' := fun hc => keyLt_irrefl k (keyLt_trans hc hk)
    have h₂ : ¬ k = k' := fun hc => keyLt_irrefl k (by rw [← hc] at hk; exact hk)
    unfold insertEntry
    rw [if_neg h₁, if_neg h₂, ih (fun x hx => h x (by simp at hx ⊢; exact Or.inr hx))]
    rfl

theorem unmarshalMapEntries_marshal (suf : List (String × Int)) (cur : GoMap Int)
    (h : ((cur.entries ++ suf).map Prod.fst).Pairwise keyLt) :
    ∃ m, unmarshalMapEntries cur (suf.map (fun e => (e.1, Json.int e.2))) = some m ∧
      m.entries = cur.entries ++ suf := by
  induction suf generalizing cur with
  | nil => exact ⟨cur, rfl, by simp⟩
  | cons e rest ih =>
    obtain ⟨k, v⟩ := e
    have hlt : ∀ x ∈ cur.entries.map Prod.fst, keyLt x k := by
      intro x hx
      rw [List.map_append, List.pairwise_append] at h
      exact h.2.2 x hx k (by simp)
    have hset : (cur.set k v).entries = cur.entries ++ [(k, v)] :=
      insertEntry_append k v cur.entries hlt
    have h' : (((cur.set k v).entries ++ rest).map Prod.fst).Pairwise keyLt := by
      rw [hset, List.append_assoc]
      exact h
    obtain ⟨m, hm, hme⟩ := ih (cur.set k v) h'
    refine ⟨m, ?_, ?_⟩
    · simp only [List.map_cons, unmarshalMapEntries, unmarshalInt]
      exact hm
    · rw [hme, hset, List.append_assoc]
      rfl

theorem unmarshalMap_marshalMap (m : GoMap Int) :
    unmarshalMap GoMap.empty (marshalMap m) = some m := by
  obtain ⟨m', hm, hme⟩ := unmarshalMapEntries_marshal m.entries GoMap.empty
    (by simpa [GoMap.empty] using m.ordered)
  have hmm : m' = m := GoMap.ext_entries (by simpa [GoMap.empty] using hme)
  show unmarshalMapEntries GoMap.empty (m.entries.map (fun e => (e.1, Json.int e.2))) = some m
  rw [hm, hmm]

theorem unmarshalStrings_str (l : List String) :
    unmarshalStrings (l.map Json.str) = some l := by
  induction l with
  | nil => rfl
  | cons x xs ih => simp [unmarshalStrings, unmarshalString, ih]

theorem unmarshalHTTPResponse_marshal (r : HTTPResponse) :
    unmarshalHTTPResponse PageInfo.zero.HTTPResponse (marshalHTTPResponse r) =
      some { r with HTML := "" } := by
  simp [unmarshalHTTPResponse, marshalHTTPResponse, unmarshalHTTPResponseFields, unmarshalInt,
    unmarshalString, unmarshalBool, unmarshalStringSlice, unmarshalStrings_str, PageInfo.zero]

theorem unmarshalPageInfo_marshal (p : PageInfo) :
    unmarshalPageInfo (marshalPageInfo p) = some (persisted p) := by
  have hz₁ : PageInfo.zero.HTMLTags = GoMap.empty := rfl
  have hz₂ : PageInfo.zero.ContentTokens = GoMap.empty := rfl
  simp [unmarshalPageInfo, marshalPageInfo, unmarshalPageInfoFields,
    unmarshalHTTPResponse_marshal, unmarshalMap_marshalMap, unmarshalString, persisted,
    hz₁, hz₂]

theorem unmarshalPageInfos_marshal (l : List PageInfo) :
    unmarshalPageInfos (l.map marshalPageInfo) = some (l.map persisted) := by
  induction l with
  | nil => rfl
  | cons p ps ih => simp [unmarshalPageInfos, unmarshalPageInfo_marshal, ih]

theorem ReadPageInfoCache_marshalCorpus (l : List PageInfo) :
    ReadPageInfoCache (some (FileData.document (marshalCorpus l))) =
      Except.ok (l.map persisted) := by
  simp [ReadPageInfoCache, marshalCorpus, unmarshalCorpus, unmarshalPageInfos_marshal]

theorem persisted_persisted (p : PageInfo) : persisted (persisted p) = persisted p := rfl

theorem loadAfterAppends_cons (file : Option FileData) (r : PageInfo) (rs : List PageInfo) :
    loadAfterAppends file (r :: rs) =
      match AppendPageInfoToJson file r with
      | Except.error e => Except.error e
      | Except.ok file' => loadAfterAppends file' rs := by
  unfold loadAfterAppends
  rw [appendAll]
  cases AppendPageInfoToJson file r <;> rfl

theorem AppendPageInfoToJson_document (l : List PageInfo) (r : PageInfo) :
    AppendPageInfoToJson (some (FileData.document (marshalCorpus l))) r =
      Except.ok (some (FileData.document (marshalCorpus (l.map persisted ++ [r])))) := by
  unfold AppendPageInfoToJson
  rw [ReadPageInfoCache_marshalCorpus]

theorem loadAfterAppends_document (records l : List PageInfo) :
    loadAfterAppends (some (FileData.document (marshalCorpus l))) records =
      Except.ok (l.map persisted ++ records.map persisted) := by
  induction records generalizing l with
  | nil => simp [loadAfterAppends, appendAll, ReadPageInfoCache_marshalCorpus]
  | cons r rs ih =>
    rw [loadAfterAppends_cons, AppendPageInfoToJson_document]
    simp only []
    rw [ih]
    simp [persisted_persisted]

/-! ## Properties of the corpus store -/

/-- C1, amended: `ReadPageInfoCache` on a file of length zero returns the empty corpus
and no error; where there is no file it returns the error of the read. -/
theorem ReadPageInfoCache_empty_or_absent :
    ReadPageInfoCache (some FileData.empty) = Except.ok [] ∧
      ReadPageInfoCache none = Except.error StoreError.readingFile :=
  ⟨rfl, rfl⟩

/-- C1, counterexample: where there is no file, `ReadPageInfoCache` does not return the
empty corpus: `os.ReadFile` fails and the error is returned. -/
theorem ReadPageInfoCache_absent_counterexample :
    ReadPageInfoCache none ≠ Except.ok [] := by
  decide

/-- C2, amended: starting from a file of length zero, one `AppendPageInfoToJson` for
each record (its strings valid UTF-8) and then `ReadPageInfoCache` succeed and return
the records in the order of the appends, each equal to the appended one but for
`HTTPResponse.HTML`, which is not stored and comes back empty.  Where there is no file,
the first append fails. -/
theorem store_round_trip (records : List PageInfo) :
    loadAfterAppends (some FileData.empty) records = Except.ok (records.map persisted) ∧
      ∀ r : PageInfo, loadAfterAppends none (r :: records) =
        Except.error (StoreError.failedToReadJSON StoreError.readingFile) := by
  refine ⟨?_, fun r => rfl⟩
  cases records with
  | nil => rfl
  | cons r rs =>
    rw [loadAfterAppends_cons]
    show loadAfterAppends (some (FileData.document (marshalCorpus [r]))) rs = _
    rw [loadAfterAppends_document]
    rfl

/-- C2, counterexample: a record with the page `<p>hi</p>` in `HTTPResponse.HTML`,
appended to a file of length zero, is loaded back without the page. -/
theorem store_round_trip_counterexample :
    loadAfterAppends (some FileData.empty) [fetchedPage] = Except.ok [persisted fetchedPage] ∧
      (persisted fetchedPage).HTTPResponse.HTML = "" ∧
      loadAfterAppends (some FileData.empty) [fetchedPage] ≠ Except.ok [fetchedPage] := by
  decide

end Indexergo
